import Mathlib

/-!
Verification development for the VX repository.

Part I embeds `src/safeStringify.js` (the serializer): JavaScript values are
modelled as a flat value type `JSVal` whose composites live in an explicit
heap (association list from addresses to objects), so that reference
identity and cyclic graphs are expressible.  `JSON.stringify` with the
source's replacer is modelled by `serializeProperty`, a fuel-indexed
traversal threading the `seen` set (the WeakSet of the source).

Part II embeds `src/smartParse.js` (the rule-based content resolver).

Modelling conventions: machine strings are Lean `String`s, JS numbers are
restricted to integers, each timestamp / compiled pattern / callable is a
distinct object (so the WeakSet never fires on them, as in the generic
case), and exceptions are modelled by `Option` / `Except`.
-/

/-- Atomic JavaScript values; composites are referenced through heap
addresses (`ref`).  A `date` carries its `toISOString()` text, a `regexp`
its `toString()` text (source plus flags), a `func` its source text. -/
inductive JSVal where
  | str (s : String)
  | num (n : Int)
  | bool (b : Bool)
  | null
  | undef
  | date (iso : String)
  | regexp (src : String)
  | func (src : String)
  | ref (a : Nat)
deriving DecidableEq, Repr

/-- Heap objects: JS plain objects (ordered field list, insertion order)
and arrays. -/
inductive Obj where
  | map (fields : List (String × JSVal))
  | arr (elems : List JSVal)
deriving DecidableEq, Repr

/-- A heap is an association list from addresses to objects. -/
abbrev Heap := List (Nat × Obj)

/-- Heap lookup (first binding wins). -/
def hLookup : Heap → Nat → Option Obj
  | [], _ => none
  | (b, o) :: rest, a => if a = b then some o else hLookup rest a

/-- The set of addresses bound in a heap. -/
def domF (h : Heap) : Finset Nat := (h.map Prod.fst).toFinset

/-- The circular-reference placeholder emitted by the source. -/
def circMarker : String := "[Circular Reference]"

/-- JSON string escaping for one character, as `JSON.stringify` performs
on the characters that occur in this development: quote and backslash
are backslash-escaped verbatim, the common control characters get their
letter escapes, everything else passes through. -/
def escChar (c : Char) : List Char :=
  if c = '"' ∨ c = '\\' then ['\\', c]
  else if c = '\n' then ['\\', 'n']
  else if c = '\r' then ['\\', 'r']
  else if c = '\t' then ['\\', 't']
  else [c]

/-- Quote a string as a JSON string literal. -/
def jsonQuote (s : String) : String := ⟨'"' :: (s.data.flatMap escChar ++ ['"'])⟩

/-- Join rendered parts with a separator, as `Array.prototype.join`. -/
def joinSep (sep : String) : List String → String
  | [] => ""
  | [x] => x
  | x :: xs => x ++ sep ++ joinSep sep xs

/-- Fold the serializer step over an object's field list, threading the
seen-set; a `none` rendering (JS `undefined`) drops the member, as
`JSON.stringify` does. -/
def foldFields (step : Finset Nat → JSVal → Option (Finset Nat × Option String)) :
    Finset Nat → List (String × JSVal) → Option (Finset Nat × List String)
  | seen, [] => some (seen, [])
  | seen, (k, v) :: rest =>
    match step seen v with
    | none => none
    | some (seen1, none) => foldFields step seen1 rest
    | some (seen1, some s) =>
      match foldFields step seen1 rest with
      | none => none
      | some (seen2, parts) => some (seen2, (jsonQuote k ++ ":" ++ s) :: parts)

/-- Fold the serializer step over an array's elements; a dropped element
renders as `null`, as `JSON.stringify` does. -/
def foldElems (step : Finset Nat → JSVal → Option (Finset Nat × Option String)) :
    Finset Nat → List JSVal → Option (Finset Nat × List String)
  | seen, [] => some (seen, [])
  | seen, v :: rest =>
    match step seen v with
    | none => none
    | some (seen1, r) =>
      match foldElems step seen1 rest with
      | none => none
      | some (seen2, parts) => some (seen2, r.getD "null" :: parts)

/-- One property serialization step of `JSON.stringify(value, replacer)`
with the replacer of `safeStringify`: composites are checked against and
added to the seen-set (emitting the circular marker on a hit), nested
dates render through `toJSON` as ISO strings, nested regexps and
functions render as their text, `undefined` is dropped.  The outer
`Option` is a modelling artifact only: `none` means the fuel ran out or a
reference dangled, neither of which happens for well-formed heaps with
sufficient fuel (proved below).  Inner `Option String`: `none` is the JS
`undefined` rendering (member dropped). -/
def serializeProperty (h : Heap) : Nat → Finset Nat → JSVal → Option (Finset Nat × Option String)
  | 0, _, _ => none
  | fuel + 1, seen, v =>
    match v with
    | .date iso => some (seen, some (jsonQuote iso))
    | .regexp src => some (seen, some (jsonQuote src))
    | .func src => some (seen, some (jsonQuote src))
    | .undef => some (seen, none)
    | .null => some (seen, some "null")
    | .bool b => some (seen, some (cond b "true" "false"))
    | .num n => some (seen, some (toString n))
    | .str s => some (seen, some (jsonQuote s))
    | .ref a =>
      if a ∈ seen then some (seen, some (jsonQuote circMarker))
      else
        match hLookup h a with
        | none => none
        | some (.map fields) =>
          match foldFields (serializeProperty h fuel) (insert a seen) fields with
          | none => none
          | some (seen2, parts) =>
            some (seen2, some ("\x7b" ++ joinSep "," parts ++ "\x7d"))
        | some (.arr elems) =>
          match foldElems (serializeProperty h fuel) (insert a seen) elems with
          | none => none
          | some (seen2, parts) =>
            some (seen2, some ("[" ++ joinSep "," parts ++ "]"))

/-- The serializer of `src/safeStringify.js`: top-level type dispatch for
dates, regexps, functions and `undefined`, then `JSON.stringify` with the
seen-set replacer.  `none` is the modelling artifact for "the structural
pass did not produce a string", shown below to be unreachable for
well-formed input; within the modelled value universe the source's
`catch` branch is dead code, so it has no successful outcome here. -/
def safeStringify (h : Heap) (v : JSVal) : Option String :=
  match v with
  | .date iso => some iso
  | .regexp src => some src
  | .func src => some src
  | .undef => some "undefined"
  | v =>
    match serializeProperty h (h.length + 1) ∅ v with
    | some (_, some s) => some s
    | _ => none

/-- A value's direct reference, if any, points into the heap. -/
def valRefb (h : Heap) : JSVal → Bool
  | .ref a => decide (a ∈ domF h)
  | _ => true

/-- All references held directly by an object point into the heap. -/
def objRefb (h : Heap) : Obj → Bool
  | .map fields => fields.all fun kv => valRefb h kv.2
  | .arr elems => elems.all (valRefb h)

/-- Heap well-formedness: every stored object only references bound
addresses. -/
def heapWFb (h : Heap) : Bool := h.all fun e => objRefb h e.2

mutual
/-- Tree-shaped values: acyclic values in which every composite occurs
exactly once (no shared references).  These are exactly the values on
which the seen-set of the source can never fire. -/
inductive TVal where
  | str (s : String)
  | num (n : Int)
  | bool (b : Bool)
  | null
  | undef
  | date (iso : String)
  | regexp (src : String)
  | func (src : String)
  | map (fields : TFields)
  | arr (elems : TElems)
/-- Field list of a tree-shaped mapping. -/
inductive TFields where
  | nil
  | cons (k : String) (v : TVal) (rest : TFields)
/-- Element list of a tree-shaped sequence. -/
inductive TElems where
  | nil
  | cons (v : TVal) (rest : TElems)
end

mutual
/-- Specification-side structural encoder (spec section 4.1, steps 2 and 4,
and section 8 "recursive equivalence"): standard JSON-style text encoding
with the special-kind substitutions applied at every nesting depth, where
a nested timestamp / compiled pattern / callable renders as a JSON string
of its textual form and an absent-marker member follows standard JSON
encoding (omitted from mappings, `null` in sequences; the `none` result
signals such an absent member to the enclosing composite). -/
def structEnc : TVal → Option String
  | .str s => some (jsonQuote s)
  | .num n => some (toString n)
  | .bool b => some (cond b "true" "false")
  | .null => some "null"
  | .undef => none
  | .date iso => some (jsonQuote iso)
  | .regexp src => some (jsonQuote src)
  | .func src => some (jsonQuote src)
  | .map fs => some ("\x7b" ++ joinSep "," (structEncF fs) ++ "\x7d")
  | .arr es => some ("[" ++ joinSep "," (structEncE es) ++ "]")
/-- Rendered members of a mapping, in order, absent members omitted. -/
def structEncF : TFields → List String
  | .nil => []
  | .cons k v rest =>
    match structEnc v with
    | none => structEncF rest
    | some s => (jsonQuote k ++ ":" ++ s) :: structEncF rest
/-- Rendered elements of a sequence, in order, absent elements as `null`. -/
def structEncE : TElems → List String
  | .nil => []
  | .cons v rest => (structEnc v).getD "null" :: structEncE rest
end

/-- Specification-side serialization (spec section 4.1): top-level type
dispatch for the special kinds, then the structural encoding. -/
def specTop : TVal → String
  | .date iso => iso
  | .regexp src => src
  | .func src => src
  | .undef => "undefined"
  | t => (structEnc t).getD "undefined"

mutual
/-- Encoder following claim C2's words literally: like `structEnc` but
with the absent-marker substitution also applied at every nesting depth,
rendering a nested absent-marker as the string "undefined". -/
def claimEnc : TVal → String
  | .str s => jsonQuote s
  | .num n => toString n
  | .bool b => cond b "true" "false"
  | .null => "null"
  | .undef => jsonQuote "undefined"
  | .date iso => jsonQuote iso
  | .regexp src => jsonQuote src
  | .func src => jsonQuote src
  | .map fs => "\x7b" ++ joinSep "," (claimEncF fs) ++ "\x7d"
  | .arr es => "[" ++ joinSep "," (claimEncE es) ++ "]"
/-- Members under claim C2's literal reading. -/
def claimEncF : TFields → List String
  | .nil => []
  | .cons k v rest => (jsonQuote k ++ ":" ++ claimEnc v) :: claimEncF rest
/-- Elements under claim C2's literal reading. -/
def claimEncE : TElems → List String
  | .nil => []
  | .cons v rest => claimEnc v :: claimEncE rest
end

/-- Claim C2's encoding of a whole value: top-level dispatch, then the
literal-reading structural encoding. -/
def claimTop : TVal → String
  | .date iso => iso
  | .regexp src => src
  | .func src => src
  | .undef => "undefined"
  | t => claimEnc t

/-- Unfold the fields of a heap value into a tree, given an unfolding for
values. -/
def unfoldFieldsWith (step : JSVal → Option TVal) :
    List (String × JSVal) → Option TFields
  | [] => some .nil
  | (k, v) :: rest =>
    match step v, unfoldFieldsWith step rest with
    | some tv, some tr => some (.cons k tv tr)
    | _, _ => none

/-- Unfold the elements of a heap value into a tree, given an unfolding
for values. -/
def unfoldElemsWith (step : JSVal → Option TVal) :
    List JSVal → Option TElems
  | [] => some .nil
  | v :: rest =>
    match step v, unfoldElemsWith step rest with
    | some tv, some tr => some (.cons tv tr)
    | _, _ => none

/-- Unfold a heap value into a tree by dereferencing composites, with
fuel bounding the depth; succeeds at fuel `h.length + 1` exactly on the
values whose reference structure is acyclic. -/
def unfoldV (h : Heap) : Nat → JSVal → Option TVal
  | 0, _ => none
  | fuel + 1, v =>
    match v with
    | .str s => some (.str s)
    | .num n => some (.num n)
    | .bool b => some (.bool b)
    | .null => some .null
    | .undef => some .undef
    | .date iso => some (.date iso)
    | .regexp src => some (.regexp src)
    | .func src => some (.func src)
    | .ref a =>
      match hLookup h a with
      | none => none
      | some (.map fields) => (unfoldFieldsWith (unfoldV h fuel) fields).map .map
      | some (.arr elems) => (unfoldElemsWith (unfoldV h fuel) elems).map .arr

/-- Acyclicity of a heap value, evaluated as depth-bounded unfolding:
for a heap of `n` bindings any acyclic chain of references has length at
most `n`, so this fuel suffices. -/
def acyclicb (h : Heap) (v : JSVal) : Bool := (unfoldV h (h.length + 1) v).isSome

/-- The atomic embedding of a tree value (composites become references to
the counter's current address). -/
def embedV : TVal → Nat → JSVal
  | .str s, _ => .str s
  | .num n, _ => .num n
  | .bool b, _ => .bool b
  | .null, _ => .null
  | .undef, _ => .undef
  | .date iso, _ => .date iso
  | .regexp src, _ => .regexp src
  | .func src, _ => .func src
  | .map _, n => .ref n
  | .arr _, n => .ref n

mutual
/-- Next free address after embedding a tree starting at address `n`. -/
def embedN : TVal → Nat → Nat
  | .map fs, n => embedFN fs (n + 1)
  | .arr es, n => embedEN es (n + 1)
  | _, k => k
/-- Next free address after embedding a field list starting at `n`. -/
def embedFN : TFields → Nat → Nat
  | .nil, n => n
  | .cons _ v rest, n => embedFN rest (embedN v n)
/-- Next free address after embedding an element list starting at `n`. -/
def embedEN : TElems → Nat → Nat
  | .nil, n => n
  | .cons v rest, n => embedEN rest (embedN v n)
end

/-- Embedded field values of a field list starting at address `n`. -/
def embedFV : TFields → Nat → List (String × JSVal)
  | .nil, _ => []
  | .cons k v rest, n => (k, embedV v n) :: embedFV rest (embedN v n)

/-- Embedded element values of an element list starting at address `n`. -/
def embedEV : TElems → Nat → List JSVal
  | .nil, _ => []
  | .cons v rest, n => embedV v n :: embedEV rest (embedN v n)

mutual
/-- Heap produced by embedding a tree starting at address `n`: each
composite gets a fresh address, so the heap is tree-shaped (every
composite referenced exactly once). -/
def embedH : TVal → Nat → Heap
  | .map fs, n => (n, .map (embedFV fs (n + 1))) :: embedFH fs (n + 1)
  | .arr es, n => (n, .arr (embedEV es (n + 1))) :: embedEH es (n + 1)
  | _, _ => []
/-- Heap produced by embedding a field list starting at `n`. -/
def embedFH : TFields → Nat → Heap
  | .nil, _ => []
  | .cons _ v rest, n => embedH v n ++ embedFH rest (embedN v n)
/-- Heap produced by embedding an element list starting at `n`. -/
def embedEH : TElems → Nat → Heap
  | .nil, _ => []
  | .cons v rest, n => embedH v n ++ embedEH rest (embedN v n)
end

mutual
/-- Composite-nesting depth of a tree value; serialization of its
embedding consumes this much fuel. -/
def cdepth : TVal → Nat
  | .map fs => cdepthF fs + 1
  | .arr es => cdepthE es + 1
  | _ => 0
/-- Maximal composite-nesting depth over a field list. -/
def cdepthF : TFields → Nat
  | .nil => 0
  | .cons _ v rest => max (cdepth v) (cdepthF rest)
/-- Maximal composite-nesting depth over an element list. -/
def cdepthE : TElems → Nat
  | .nil => 0
  | .cons v rest => max (cdepth v) (cdepthE rest)
end

/-- One heap slice is contained in another: every binding the slice
resolves is resolved identically by the larger heap. -/
def sliceIn (h H : Heap) : Prop := ∀ a o, hLookup h a = some o → hLookup H a = some o

/-- Number of occurrences of `pat` as a substring (count of start
positions at which `pat` occurs). -/
def countSubstr : List Char → List Char → Nat
  | [], _ => 0
  | c :: rest, pat =>
    (if pat.isPrefixOf (c :: rest) then 1 else 0) + countSubstr rest pat

/-- The directed reference edges of a heap: one edge per occurrence of a
reference stored directly in an object. -/
def heapEdges (h : Heap) : List (Nat × Nat) :=
  h.flatMap fun e =>
    match e.2 with
    | .map fields => fields.filterMap fun kv =>
        match kv.2 with
        | .ref b => some (e.1, b)
        | _ => none
    | .arr elems => elems.filterMap fun v =>
        match v with
        | .ref b => some (e.1, b)
        | _ => none

/-- Successor addresses of an address in the heap's reference graph. -/
def succsOf (h : Heap) (a : Nat) : List Nat :=
  (heapEdges h).filterMap fun e => if e.1 = a then some e.2 else none

/-- Depth-bounded reachability in the reference graph (a path of length
at most `fuel`); with fuel `h.length` this decides reachability, since a
simple path visits each address at most once. -/
def reachb (h : Heap) : Nat → Nat → Nat → Bool
  | 0, src, tgt => src == tgt
  | fuel + 1, src, tgt =>
    src == tgt || (succsOf h src).any fun nxt => reachb h fuel nxt tgt

/-- An edge is cyclic when its target reaches its source. -/
def cyclicEdgeb (h : Heap) (e : Nat × Nat) : Bool := reachb h h.length e.2 e.1

/-- Number of distinct cyclic edges of the heap's reference graph. -/
def cyclicEdgeCount (h : Heap) : Nat :=
  ((heapEdges h).dedup.filter (cyclicEdgeb h)).length

/-- Content values flowing through the resolver of `src/smartParse.js`:
the payload body, parsed structured data, and rule outputs.  Unlike the
serializer these never need reference identity, so composites nest
directly. -/
inductive CVal where
  | str (s : String)
  | num (n : Int)
  | bool (b : Bool)
  | null
  | undef
  | obj (fields : List (String × CVal))
  | arr (elems : List CVal)

mutual
/-- JavaScript `String()` coercion, as applied by the host `JSON.parse`
to a non-string argument: objects render as "[object Object]", arrays
join their coerced elements with commas. -/
def jsToStr : CVal → String
  | .str s => s
  | .num n => toString n
  | .bool b => cond b "true" "false"
  | .null => "null"
  | .undef => "undefined"
  | .obj _ => "[object Object]"
  | .arr es => joinSep "," (jsToStrElems es)
/-- Array elements under `String()` coercion; null and undefined render
as the empty string, as `Array.prototype.join` does. -/
def jsToStrElems : List CVal → List String
  | [] => []
  | .null :: rest => "" :: jsToStrElems rest
  | .undef :: rest => "" :: jsToStrElems rest
  | v :: rest => jsToStr v :: jsToStrElems rest
end

/-- Skip JSON whitespace. -/
def jsonSkipWs (l : List Char) : List Char :=
  l.dropWhile fun c => c == ' ' || c == '\x09' || c == '\x0a' || c == '\x0d'

/-- Consume a JSON string body up to the closing quote (escape sequences
are not modelled; a backslash fails the parse). -/
def jsonTakeStr : List Char → Option (List Char × List Char)
  | [] => none
  | c :: rest =>
    if c = '"' then some ([], rest)
    else if c = '\\' then none
    else (jsonTakeStr rest).map fun p => (c :: p.1, p.2)

/-- Decimal digits to a natural number. -/
def digitsToNat (l : List Char) : Nat := l.foldl (fun acc c => 10 * acc + (Char.toNat c - Char.toNat '0')) 0

/-- Parse a JSON integer literal (fractions and exponents are outside the
modelled universe). -/
def jsonParseNum : List Char → Option (Int × List Char)
  | '-' :: rest =>
    let p := rest.span Char.isDigit
    if p.1.isEmpty then none else some (-(digitsToNat p.1 : Int), p.2)
  | l =>
    let p := l.span Char.isDigit
    if p.1.isEmpty then none else some ((digitsToNat p.1 : Int), p.2)

mutual
/-- Recursive-descent JSON text parser modelling the host `JSON.parse`
on the modelled universe (strings without escapes, integers, booleans,
null, arrays, objects); fuel bounds the recursion and `input length + 1`
always suffices, since every recursive step consumes input. -/
def jsonParseV : Nat → List Char → Option (CVal × List Char)
  | 0, _ => none
  | fuel + 1, l =>
    match jsonSkipWs l with
    | [] => none
    | c :: rest =>
      if c = '"' then (jsonTakeStr rest).map fun p => (CVal.str ⟨p.1⟩, p.2)
      else if c = '\x7b' then
        match jsonSkipWs rest with
        | '\x7d' :: r2 => some (.obj [], r2)
        | r2 =>
          match jsonParseMembers fuel r2 with
          | some (ms, r3) => some (.obj ms, r3)
          | none => none
      else if c = '[' then
        match jsonSkipWs rest with
        | ']' :: r2 => some (.arr [], r2)
        | r2 =>
          match jsonParseElems fuel r2 with
          | some (es, r3) => some (.arr es, r3)
          | none => none
      else if c = 't' then
        if rest.take 3 = ['r', 'u', 'e'] then some (.bool true, rest.drop 3) else none
      else if c = 'f' then
        if rest.take 4 = ['a', 'l', 's', 'e'] then some (.bool false, rest.drop 4) else none
      else if c = 'n' then
        if rest.take 3 = ['u', 'l', 'l'] then some (.null, rest.drop 3) else none
      else
        (jsonParseNum (c :: rest)).map fun p => (CVal.num p.1, p.2)
/-- Parse the members of a JSON object after the opening brace. -/
def jsonParseMembers : Nat → List Char → Option (List (String × CVal) × List Char)
  | 0, _ => none
  | fuel + 1, l =>
    match jsonSkipWs l with
    | '"' :: rest =>
      match jsonTakeStr rest with
      | none => none
      | some (k, r2) =>
        match jsonSkipWs r2 with
        | ':' :: r3 =>
          match jsonParseV fuel r3 with
          | none => none
          | some (v, r4) =>
            match jsonSkipWs r4 with
            | ',' :: r5 =>
              match jsonParseMembers fuel r5 with
              | some (ms, r6) => some ((⟨k⟩, v) :: ms, r6)
              | none => none
            | '\x7d' :: r5 => some ([(⟨k⟩, v)], r5)
            | _ => Option.none
        | _ => Option.none
    | _ => Option.none
/-- Parse the elements of a JSON array after the opening bracket. -/
def jsonParseElems : Nat → List Char → Option (List CVal × List Char)
  | 0, _ => none
  | fuel + 1, l =>
    match jsonParseV fuel l with
    | none => none
    | some (v, r2) =>
      match jsonSkipWs r2 with
      | ',' :: r3 =>
        match jsonParseElems fuel r3 with
        | some (es, r4) => some (v :: es, r4)
        | none => none
      | ']' :: r3 => some ([v], r3)
      | _ => none
end

/-- Parse a whole JSON text; trailing whitespace only. -/
def jsonParseText (s : String) : Option CVal :=
  match jsonParseV (s.length + 1) s.data with
  | some (v, rest) => if jsonSkipWs rest = [] then some v else none
  | none => none

/-- The host `JSON.parse` applied to an arbitrary value, as the default
json rule's transform does: a non-string argument is coerced to a string
first, so an already-parsed object becomes "[object Object]" and fails. -/
def jsParse (c : CVal) : Option CVal :=
  match c with
  | .str s => jsonParseText s
  | v => jsonParseText (jsToStr v)

/-- A rule's transform: a single function or a pipeline (array) of
functions applied left to right; `none` models a thrown exception. -/
inductive Transform where
  | single (f : CVal → Option CVal)
  | pipeline (fs : List (CVal → Option CVal))

/-- A parsing rule of `src/smartParse.js`: predicate `rule` and
transform `parse`; `none` results model thrown exceptions. -/
structure PRule where
  rule : CVal → Option Bool
  parse : Transform

/-- Apply a rule's transform to the base content; the pipeline form is
`Array.prototype.reduce` seeded with the content. -/
def runTransform : Transform → CVal → Option CVal
  | .single f, c => f c
  | .pipeline fs, c => fs.foldlM (fun acc f => f acc) c

/-- The rule-evaluation loop of `src/smartParse.js`: first predicate
returning true supplies the transform; a predicate exception or a
transform exception is absorbed and the loop continues; `none` means no
rule successfully produced a result (`processed` stayed false). -/
def evalRules : List PRule → CVal → Option CVal
  | [], _ => none
  | r :: rest, c =>
    match r.rule c with
    | some true =>
      match runTransform r.parse c with
      | some res => some res
      | none => evalRules rest c
    | _ => evalRules rest c

/-- A caller-supplied entry for one kind: an array of rules, a bare
transform function (wrapped with an always-true predicate), or a value
of any other shape (ignored by the merge). -/
inductive PEntry where
  | rules (rs : List PRule)
  | fn (f : CVal → Option CVal)
  | other

/-- The built-in default rule table, built afresh inside every call of
`parseContent` (it is a function-local constant in the source): one
always-true rule per known kind, json re-parsing and html/text identity. -/
def defaultFor : String → List PRule
  | "json" => [⟨fun _ => some true, .single jsParse⟩]
  | "html" => [⟨fun _ => some true, .single fun c => some c⟩]
  | "text" => [⟨fun _ => some true, .single fun c => some c⟩]
  | _ => []

/-- The caller-supplied rules for a kind after normalization (a bare
function becomes one always-true rule; other shapes contribute nothing). -/
def customPart (custom : List (String × PEntry)) (ty : String) : List PRule :=
  match List.lookup ty custom with
  | some (.rules rs) => rs
  | some (.fn f) => [⟨fun _ => some true, .single f⟩]
  | _ => []

/-- The effective rule list for a kind, as the merge loop of the source
produces it: caller entries are unshifted in front of the defaults of a
fresh default table. -/
def mergedFor (custom : List (String × PEntry)) (ty : String) : List PRule :=
  match List.lookup ty custom with
  | some (.rules rs) => rs ++ defaultFor ty
  | some (.fn f) => ⟨fun _ => some true, .single f⟩ :: defaultFor ty
  | _ => defaultFor ty

/-- Errors of the resolver: the `Response is required` guard and the
content-decode failure (`Failed to parse content`, the spec's
ContentDecodeError). -/
inductive JSErr where
  | required
  | decode
deriving DecidableEq

/-- One argument passed to the completion callback. -/
inductive CbArg where
  | val (v : CVal)
  | err (e : JSErr)

/-- Observable outcome of one `parseContent` call: the returned or
thrown value, and the argument lists of every callback invocation made
during the call, in order. -/
structure PCResult where
  ret : Except JSErr CVal
  calls : List (List CbArg)

/-- A resolver payload: `response.type` (absent modelling a falsy field)
and `response.body`. -/
structure Payload where
  type : Option String
  body : CVal

/-- The effective kind: `response.type || 'text'`. -/
def effType : Option String → String
  | none => "text"
  | some t => if t = "" then "text" else t

/-- The content-extraction step of `parseContent`: for kind json a
textual body is parsed as structured data (the only failure point); any
other body, and every other kind, passes through unchanged. -/
def extract (ty : String) (body : CVal) : Except JSErr CVal :=
  if ty = "json" then
    match body with
    | .str s =>
      match jsonParseText s with
      | none => .error .decode
      | some v => .ok v
    | b => .ok b
  else .ok body

/-- The resolver of `src/smartParse.js`: guard, extraction (with
callback-then-throw on failure), merge, rule loop with identity
fallback, final callback.  `response = none` models a falsy response
argument. -/
def parseContent (response : Option Payload) (parsers : List (String × PEntry))
    (cbGiven : Bool) : PCResult :=
  match response with
  | none => ⟨.error .required, []⟩
  | some resp =>
    let ty := effType resp.type
    match extract ty resp.body with
    | .error e => ⟨.error e, if cbGiven then [[.val .null, .err e]] else []⟩
    | .ok content =>
      let typeRules := mergedFor parsers ty
      if typeRules.isEmpty then
        ⟨.ok content, if cbGiven then [[.val content]] else []⟩
      else
        let result := (evalRules typeRules content).getD content
        ⟨.ok result, if cbGiven then [[.val result]] else []⟩

/-- Cyclic heap for claim C1's witness: a value referencing itself. -/
def c1Heap : Heap := [(0, .map [("self", .ref 0)])]

/-- Acyclic heap for claim C2's counterexample: address 1 holds a
mapping referencing the empty mapping at address 0 twice (no cycle) and
holding one absent-marker member. -/
def c2Heap : Heap := [(1, .map [("a", .ref 0), ("b", .ref 0), ("u", .undef)]), (0, .map [])]

/-- Heap for claim C9's counterexample: the root is directly
self-referencing and also references the composite at address 1 twice
without a cycle. -/
def c9Heap : Heap := [(0, .map [("self", .ref 0), ("a", .ref 1), ("b", .ref 1)]), (1, .map [])]

/-- Cyclic heap for claim C9's witness. -/
def c9wHeap : Heap := [(0, .map [("self", .ref 0)])]

/-- ASCII uppercase, modelling `String.prototype.toUpperCase` on the
inputs of this development. -/
def upperStr (s : String) : String := ⟨s.data.map Char.toUpper⟩

/-- The custom uppercase rule of claim C5: always-true predicate, and a
transform that uppercases a string and throws on anything else, as
`content.toUpperCase()` would. -/
def c5UpperRule : PRule :=
  ⟨fun _ => some true, .single fun c =>
    match c with
    | .str s => some (.str (upperStr s))
    | _ => none⟩

/-- Claim C5's custom rule table: one uppercase rule for kind text. -/
def c5Upper : List (String × PEntry) := [("text", .rules [c5UpperRule])]

theorem lookup_mem {h : Heap} {a : Nat} {o : Obj}
    (hl : hLookup h a = some o) : (a, o) ∈ h := by
  induction h with
  | nil => simp [hLookup] at hl
  | cons e rest ih =>
    obtain ⟨b, o1⟩ := e
    by_cases hab : a = b
    · subst hab
      simp [hLookup] at hl
      subst hl
      exact List.mem_cons_self _ _
    · simp only [hLookup, if_neg hab] at hl
      exact List.mem_cons_of_mem _ (ih hl)

theorem mem_domF_of_lookup {h : Heap} {a : Nat} {o : Obj}
    (hl : hLookup h a = some o) : a ∈ domF h := by
  have := lookup_mem hl
  simp only [domF, List.mem_toFinset]
  exact List.mem_map_of_mem Prod.fst this

theorem lookup_isSome_of_mem {h : Heap} {a : Nat}
    (ha : a ∈ domF h) : (hLookup h a).isSome := by
  induction h with
  | nil => simp [domF] at ha
  | cons e rest ih =>
    obtain ⟨b, o1⟩ := e
    by_cases hab : a = b
    · subst hab; simp [hLookup]
    · simp only [domF, List.map_cons, List.toFinset_cons, Finset.mem_insert] at ha
      rcases ha with ha | ha
      · exact absurd ha hab
      · simp only [hLookup, if_neg hab]
        exact ih (by simpa [domF] using ha)

theorem lookup_wf {h : Heap} {a : Nat} {o : Obj} (hwf : heapWFb h = true)
    (hl : hLookup h a = some o) : objRefb h o = true := by
  have hm := lookup_mem hl
  simp only [heapWFb, List.all_eq_true] at hwf
  exact hwf _ hm

theorem foldFields_mono
    {step : Finset Nat → JSVal → Option (Finset Nat × Option String)}
    (hstep : ∀ s v s2 r, step s v = some (s2, r) → s ⊆ s2) :
    ∀ seen fields seen2 parts,
      foldFields step seen fields = some (seen2, parts) → seen ⊆ seen2 := by
  intro seen fields
  induction fields generalizing seen with
  | nil =>
    intro seen2 parts hf
    simp [foldFields] at hf
    exact hf.1 ▸ Finset.Subset.refl _
  | cons kv rest ih =>
    intro seen2 parts hf
    obtain ⟨k, v⟩ := kv
    simp only [foldFields] at hf
    cases hs : step seen v with
    | none => rw [hs] at hf; simp at hf
    | some p =>
      obtain ⟨seen1, r⟩ := p
      rw [hs] at hf
      have h1 : seen ⊆ seen1 := hstep _ _ _ _ hs
      cases r with
      | none => exact h1.trans (ih seen1 seen2 parts hf)
      | some s =>
        simp only at hf
        cases hrest : foldFields step seen1 rest with
        | none => rw [hrest] at hf; simp at hf
        | some q =>
          obtain ⟨seen3, parts3⟩ := q
          rw [hrest] at hf
          simp only [Prod.mk.injEq, Option.some.injEq] at hf
          exact hf.1 ▸ h1.trans (ih seen1 seen3 parts3 hrest)

theorem foldElems_mono
    {step : Finset Nat → JSVal → Option (Finset Nat × Option String)}
    (hstep : ∀ s v s2 r, step s v = some (s2, r) → s ⊆ s2) :
    ∀ seen elems seen2 parts,
      foldElems step seen elems = some (seen2, parts) → seen ⊆ seen2 := by
  intro seen elems
  induction elems generalizing seen with
  | nil =>
    intro seen2 parts hf
    simp [foldElems] at hf
    exact hf.1 ▸ Finset.Subset.refl _
  | cons v rest ih =>
    intro seen2 parts hf
    simp only [foldElems] at hf
    cases hs : step seen v with
    | none => rw [hs] at hf; simp at hf
    | some p =>
      obtain ⟨seen1, r⟩ := p
      rw [hs] at hf
      have h1 : seen ⊆ seen1 := hstep _ _ _ _ hs
      simp only at hf
      cases hrest : foldElems step seen1 rest with
      | none => rw [hrest] at hf; simp at hf
      | some q =>
        obtain ⟨seen3, parts3⟩ := q
        rw [hrest] at hf
        simp only [Prod.mk.injEq, Option.some.injEq] at hf
        exact hf.1 ▸ h1.trans (ih seen1 seen3 parts3 hrest)

theorem sp_mono (h : Heap) :
    ∀ fuel seen v seen2 r, serializeProperty h fuel seen v = some (seen2, r) → seen ⊆ seen2 := by
  intro fuel
  induction fuel with
  | zero => intro seen v seen2 r hsp; simp [serializeProperty] at hsp
  | succ fuel ih =>
    intro seen v seen2 r hsp
    cases v with
    | ref a =>
      by_cases ha : a ∈ seen
      · simp [serializeProperty, ha] at hsp
        exact hsp.1 ▸ Finset.Subset.refl _
      · simp only [serializeProperty, if_neg ha] at hsp
        cases hl : hLookup h a with
        | none => rw [hl] at hsp; simp at hsp
        | some o =>
          rw [hl] at hsp
          cases o with
          | map fields =>
            simp only at hsp
            cases hf : foldFields (serializeProperty h fuel) (insert a seen) fields with
            | none => rw [hf] at hsp; simp at hsp
            | some q =>
              obtain ⟨seen3, parts⟩ := q
              rw [hf] at hsp
              simp only [Prod.mk.injEq, Option.some.injEq] at hsp
              have := foldFields_mono (fun s v s2 r => ih s v s2 r) _ _ _ _ hf
              exact hsp.1 ▸ (Finset.subset_insert a seen).trans this
          | arr elems =>
            simp only at hsp
            cases hf : foldElems (serializeProperty h fuel) (insert a seen) elems with
            | none => rw [hf] at hsp; simp at hsp
            | some q =>
              obtain ⟨seen3, parts⟩ := q
              rw [hf] at hsp
              simp only [Prod.mk.injEq, Option.some.injEq] at hsp
              have := foldElems_mono (fun s v s2 r => ih s v s2 r) _ _ _ _ hf
              exact hsp.1 ▸ (Finset.subset_insert a seen).trans this
    | str s => simp [serializeProperty] at hsp; exact hsp.1 ▸ Finset.Subset.refl _
    | num n => simp [serializeProperty] at hsp; exact hsp.1 ▸ Finset.Subset.refl _
    | bool b => simp [serializeProperty] at hsp; exact hsp.1 ▸ Finset.Subset.refl _
    | null => simp [serializeProperty] at hsp; exact hsp.1 ▸ Finset.Subset.refl _
    | undef => simp [serializeProperty] at hsp; exact hsp.1 ▸ Finset.Subset.refl _
    | date iso => simp [serializeProperty] at hsp; exact hsp.1 ▸ Finset.Subset.refl _
    | regexp src => simp [serializeProperty] at hsp; exact hsp.1 ▸ Finset.Subset.refl _
    | func src => simp [serializeProperty] at hsp; exact hsp.1 ▸ Finset.Subset.refl _

theorem card_sdiff_anti (h : Heap) {s t : Finset Nat} (hst : s ⊆ t) :
    (domF h \ t).card ≤ (domF h \ s).card :=
  Finset.card_le_card (Finset.sdiff_subset_sdiff (Finset.Subset.refl _) hst)

theorem card_sdiff_insert_lt (h : Heap) {a : Nat} {seen : Finset Nat}
    (hd : a ∈ domF h) (hs : a ∉ seen) :
    (domF h \ insert a seen).card < (domF h \ seen).card := by
  have hmem : a ∈ domF h \ seen := Finset.mem_sdiff.2 ⟨hd, hs⟩
  have : domF h \ insert a seen = (domF h \ seen).erase a := by
    ext x
    simp only [Finset.mem_sdiff, Finset.mem_insert, Finset.mem_erase]
    tauto
  rw [this]
  exact Finset.card_erase_lt_of_mem hmem

theorem foldFields_total (h : Heap) (fuel : Nat)
    (hstep : ∀ s v, valRefb h v = true → (domF h \ s).card < fuel →
      (serializeProperty h fuel s v).isSome) :
    ∀ seen fields, (fields.all fun kv => valRefb h kv.2) = true →
      (domF h \ seen).card < fuel →
      (foldFields (serializeProperty h fuel) seen fields).isSome := by
  intro seen fields
  induction fields generalizing seen with
  | nil => intro _ _; simp [foldFields]
  | cons kv rest ih =>
    intro hall hcard
    obtain ⟨k, v⟩ := kv
    simp only [List.all_cons, Bool.and_eq_true] at hall
    have h1 := hstep seen v hall.1 hcard
    cases hs : serializeProperty h fuel seen v with
    | none => rw [hs] at h1; simp at h1
    | some p =>
      obtain ⟨seen1, r⟩ := p
      have hsub : seen ⊆ seen1 := sp_mono h fuel seen v seen1 r hs
      have hcard1 : (domF h \ seen1).card < fuel :=
        lt_of_le_of_lt (card_sdiff_anti h hsub) hcard
      have h2 := ih seen1 hall.2 hcard1
      cases r with
      | none => simpa [foldFields, hs] using h2
      | some s =>
        cases hrest : foldFields (serializeProperty h fuel) seen1 rest with
        | none => rw [hrest] at h2; simp at h2
        | some q => obtain ⟨s2, p2⟩ := q; simp [foldFields, hs, hrest]

theorem foldElems_total (h : Heap) (fuel : Nat)
    (hstep : ∀ s v, valRefb h v = true → (domF h \ s).card < fuel →
      (serializeProperty h fuel s v).isSome) :
    ∀ seen elems, (elems.all (valRefb h)) = true →
      (domF h \ seen).card < fuel →
      (foldElems (serializeProperty h fuel) seen elems).isSome := by
  intro seen elems
  induction elems generalizing seen with
  | nil => intro _ _; simp [foldElems]
  | cons v rest ih =>
    intro hall hcard
    simp only [List.all_cons, Bool.and_eq_true] at hall
    have h1 := hstep seen v hall.1 hcard
    cases hs : serializeProperty h fuel seen v with
    | none => rw [hs] at h1; simp at h1
    | some p =>
      obtain ⟨seen1, r⟩ := p
      have hsub : seen ⊆ seen1 := sp_mono h fuel seen v seen1 r hs
      have hcard1 : (domF h \ seen1).card < fuel :=
        lt_of_le_of_lt (card_sdiff_anti h hsub) hcard
      have h2 := ih seen1 hall.2 hcard1
      simp only [foldElems, hs]
      cases hrest : foldElems (serializeProperty h fuel) seen1 rest with
      | none => rw [hrest] at h2; simp at h2
      | some q => simp

theorem sp_total (h : Heap) (hwf : heapWFb h = true) :
    ∀ fuel seen v, valRefb h v = true → (domF h \ seen).card < fuel →
      (serializeProperty h fuel seen v).isSome := by
  intro fuel
  induction fuel with
  | zero => intro seen v _ hcard; omega
  | succ fuel ih =>
    intro seen v hv hcard
    cases v with
    | ref a =>
      by_cases ha : a ∈ seen
      · simp [serializeProperty, ha]
      · simp only [valRefb, decide_eq_true_eq] at hv
        have hlk := lookup_isSome_of_mem hv
        cases hl : hLookup h a with
        | none => rw [hl] at hlk; simp at hlk
        | some o =>
          have hcard2 : (domF h \ insert a seen).card < fuel := by
            have := card_sdiff_insert_lt h hv ha
            omega
          have hrefs := lookup_wf hwf hl
          cases o with
          | map fields =>
            simp only [objRefb] at hrefs
            have := foldFields_total h fuel (fun s v hv hc => ih s v hv hc)
              (insert a seen) fields hrefs hcard2
            cases hf : foldFields (serializeProperty h fuel) (insert a seen) fields with
            | none => rw [hf] at this; simp at this
            | some q =>
              obtain ⟨s3, p3⟩ := q
              simp [serializeProperty, if_neg ha, hl, hf]
          | arr elems =>
            simp only [objRefb] at hrefs
            have := foldElems_total h fuel (fun s v hv hc => ih s v hv hc)
              (insert a seen) elems hrefs hcard2
            cases hf : foldElems (serializeProperty h fuel) (insert a seen) elems with
            | none => rw [hf] at this; simp at this
            | some q =>
              obtain ⟨s3, p3⟩ := q
              simp [serializeProperty, if_neg ha, hl, hf]
    | str s => simp [serializeProperty]
    | num n => simp [serializeProperty]
    | bool b => simp [serializeProperty]
    | null => simp [serializeProperty]
    | undef => simp [serializeProperty]
    | date iso => simp [serializeProperty]
    | regexp src => simp [serializeProperty]
    | func src => simp [serializeProperty]

theorem sp_ref_not_dropped (h : Heap) (fuel : Nat) (seen : Finset Nat) (a : Nat)
    {seen2 : Finset Nat} {out : Option String}
    (hsp : serializeProperty h fuel seen (.ref a) = some (seen2, out)) : out.isSome := by
  cases fuel with
  | zero => simp [serializeProperty] at hsp
  | succ fuel =>
    by_cases ha : a ∈ seen
    · simp [serializeProperty, ha] at hsp
      simp [← hsp.2]
    · simp only [serializeProperty, if_neg ha] at hsp
      cases hl : hLookup h a with
      | none => rw [hl] at hsp; simp at hsp
      | some o =>
        rw [hl] at hsp
        cases o with
        | map fields =>
          simp only at hsp
          cases hf : foldFields (serializeProperty h fuel) (insert a seen) fields with
          | none => rw [hf] at hsp; simp at hsp
          | some q =>
            obtain ⟨s3, p3⟩ := q
            rw [hf] at hsp
            simp only [Prod.mk.injEq, Option.some.injEq] at hsp
            simp [← hsp.2]
        | arr elems =>
          simp only at hsp
          cases hf : foldElems (serializeProperty h fuel) (insert a seen) elems with
          | none => rw [hf] at hsp; simp at hsp
          | some q =>
            obtain ⟨s3, p3⟩ := q
            rw [hf] at hsp
            simp only [Prod.mk.injEq, Option.some.injEq] at hsp
            simp [← hsp.2]

mutual
theorem embedN_le (t : TVal) (n : Nat) : n ≤ embedN t n := by
  cases t with
  | map fs =>
    have := embedFN_le fs (n + 1)
    simp only [embedN]
    omega
  | arr es =>
    have := embedEN_le es (n + 1)
    simp only [embedN]
    omega
  | str s => simp [embedN]
  | num m => simp [embedN]
  | bool b => simp [embedN]
  | null => simp [embedN]
  | undef => simp [embedN]
  | date iso => simp [embedN]
  | regexp src => simp [embedN]
  | func src => simp [embedN]

theorem embedFN_le (fs : TFields) (n : Nat) : n ≤ embedFN fs n := by
  cases fs with
  | nil => simp [embedFN]
  | cons k v rest =>
    have h1 := embedN_le v n
    have h2 := embedFN_le rest (embedN v n)
    simp only [embedFN]
    omega

theorem embedEN_le (es : TElems) (n : Nat) : n ≤ embedEN es n := by
  cases es with
  | nil => simp [embedEN]
  | cons v rest =>
    have h1 := embedN_le v n
    have h2 := embedEN_le rest (embedN v n)
    simp only [embedEN]
    omega
end

theorem hLookup_append_split {A B : Heap} {a : Nat} {o : Obj}
    (h : hLookup (A ++ B) a = some o) :
    hLookup A a = some o ∨ (hLookup A a = none ∧ hLookup B a = some o) := by
  induction A with
  | nil => exact Or.inr ⟨rfl, h⟩
  | cons e rest ih =>
    obtain ⟨b, o1⟩ := e
    by_cases hab : a = b
    · subst hab
      simp [hLookup] at h ⊢
      exact h
    · simp only [List.cons_append, hLookup, if_neg hab] at h ⊢
      exact ih h

theorem hLookup_append_some {A B : Heap} {a : Nat} {o : Obj}
    (h : hLookup A a = some o) : hLookup (A ++ B) a = some o := by
  induction A with
  | nil => simp [hLookup] at h
  | cons e rest ih =>
    obtain ⟨b, o1⟩ := e
    by_cases hab : a = b
    · subst hab
      simp [hLookup] at h ⊢
      exact h
    · simp only [List.cons_append, hLookup, if_neg hab] at h ⊢
      exact ih h

theorem hLookup_append_none {A B : Heap} {a : Nat}
    (h : hLookup A a = none) : hLookup (A ++ B) a = hLookup B a := by
  induction A with
  | nil => rfl
  | cons e rest ih =>
    obtain ⟨b, o1⟩ := e
    by_cases hab : a = b
    · subst hab; simp [hLookup] at h
    · simp only [List.cons_append, hLookup, if_neg hab] at h ⊢
      exact ih h

mutual
theorem embedH_range (t : TVal) (n : Nat) :
    ∀ a o, hLookup (embedH t n) a = some o → n ≤ a ∧ a < embedN t n := by
  cases t with
  | map fs =>
    intro a o hl
    simp only [embedH] at hl
    by_cases hab : a = n
    · subst hab
      have := embedFN_le fs (a + 1)
      simp only [embedN]
      omega
    · simp only [hLookup, if_neg hab] at hl
      have := embedFH_range fs (n + 1) a o hl
      simp only [embedN]
      omega
  | arr es =>
    intro a o hl
    simp only [embedH] at hl
    by_cases hab : a = n
    · subst hab
      have := embedEN_le es (a + 1)
      simp only [embedN]
      omega
    · simp only [hLookup, if_neg hab] at hl
      have := embedEH_range es (n + 1) a o hl
      simp only [embedN]
      omega
  | str s => intro a o hl; simp [embedH, hLookup] at hl
  | num m => intro a o hl; simp [embedH, hLookup] at hl
  | bool b => intro a o hl; simp [embedH, hLookup] at hl
  | null => intro a o hl; simp [embedH, hLookup] at hl
  | undef => intro a o hl; simp [embedH, hLookup] at hl
  | date iso => intro a o hl; simp [embedH, hLookup] at hl
  | regexp src => intro a o hl; simp [embedH, hLookup] at hl
  | func src => intro a o hl; simp [embedH, hLookup] at hl

theorem embedFH_range (fs : TFields) (n : Nat) :
    ∀ a o, hLookup (embedFH fs n) a = some o → n ≤ a ∧ a < embedFN fs n := by
  cases fs with
  | nil => intro a o hl; simp [embedFH, hLookup] at hl
  | cons k v rest =>
    intro a o hl
    simp only [embedFH] at hl
    rcases hLookup_append_split hl with hcase | ⟨_, hcase⟩
    · have h1 := embedH_range v n a o hcase
      have h2 := embedFN_le rest (embedN v n)
      simp only [embedFN]
      omega
    · have h1 := embedFH_range rest (embedN v n) a o hcase
      have h2 := embedN_le v n
      simp only [embedFN]
      omega

theorem embedEH_range (es : TElems) (n : Nat) :
    ∀ a o, hLookup (embedEH es n) a = some o → n ≤ a ∧ a < embedEN es n := by
  cases es with
  | nil => intro a o hl; simp [embedEH, hLookup] at hl
  | cons v rest =>
    intro a o hl
    simp only [embedEH] at hl
    rcases hLookup_append_split hl with hcase | ⟨_, hcase⟩
    · have h1 := embedH_range v n a o hcase
      have h2 := embedEN_le rest (embedN v n)
      simp only [embedEN]
      omega
    · have h1 := embedEH_range rest (embedN v n) a o hcase
      have h2 := embedN_le v n
      simp only [embedEN]
      omega
end

theorem embedH_lookup_none {t : TVal} {n a : Nat}
    (h : a < n ∨ embedN t n ≤ a) : hLookup (embedH t n) a = none := by
  cases hl : hLookup (embedH t n) a with
  | none => rfl
  | some o =>
    have := embedH_range t n a o hl
    omega

mutual
theorem spEmbed (t : TVal) (n : Nat) (H : Heap) (seen : Finset Nat) (fuel : Nat)
    (hslice : sliceIn (embedH t n) H)
    (hseen : ∀ a ∈ seen, a < n)
    (hfuel : cdepth t < fuel) :
    ∃ seen2, serializeProperty H fuel seen (embedV t n) = some (seen2, structEnc t) ∧
      ∀ a ∈ seen2, a < embedN t n := by
  cases fuel with
  | zero => omega
  | succ f =>
    cases t with
    | map fs =>
      have hnseen : n ∉ seen := fun hmem => absurd (hseen n hmem) (lt_irrefl n)
      have hlH : hLookup H n = some (.map (embedFV fs (n + 1))) := by
        apply hslice
        simp [embedH, hLookup]
      have hsliceF : sliceIn (embedFH fs (n + 1)) H := by
        intro a o hl
        apply hslice
        have hrange := embedFH_range fs (n + 1) a o hl
        simp only [embedH, hLookup]
        rw [if_neg (by omega)]
        exact hl
      have hseenF : ∀ a ∈ insert n seen, a < n + 1 := by
        intro a ha
        rcases Finset.mem_insert.1 ha with h | h
        · omega
        · have := hseen a h; omega
      have hfuelF : cdepthF fs < f := by
        simp only [cdepth] at hfuel; omega
      obtain ⟨seen2, hfold, hb⟩ := sfEmbed fs (n + 1) H (insert n seen) f hsliceF hseenF hfuelF
      refine ⟨seen2, ?_, ?_⟩
      · simp [serializeProperty, embedV, if_neg hnseen, hlH, hfold, structEnc]
      · intro a ha
        have := hb a ha
        simp only [embedN]
        omega
    | arr es =>
      have hnseen : n ∉ seen := fun hmem => absurd (hseen n hmem) (lt_irrefl n)
      have hlH : hLookup H n = some (.arr (embedEV es (n + 1))) := by
        apply hslice
        simp [embedH, hLookup]
      have hsliceE : sliceIn (embedEH es (n + 1)) H := by
        intro a o hl
        apply hslice
        have hrange := embedEH_range es (n + 1) a o hl
        simp only [embedH, hLookup]
        rw [if_neg (by omega)]
        exact hl
      have hseenE : ∀ a ∈ insert n seen, a < n + 1 := by
        intro a ha
        rcases Finset.mem_insert.1 ha with h | h
        · omega
        · have := hseen a h; omega
      have hfuelE : cdepthE es < f := by
        simp only [cdepth] at hfuel; omega
      obtain ⟨seen2, hfold, hb⟩ := seEmbed es (n + 1) H (insert n seen) f hsliceE hseenE hfuelE
      refine ⟨seen2, ?_, ?_⟩
      · simp [serializeProperty, embedV, if_neg hnseen, hlH, hfold, structEnc]
      · intro a ha
        have := hb a ha
        simp only [embedN]
        omega
    | str s =>
      exact ⟨seen, by simp [serializeProperty, embedV, structEnc],
        by simpa [embedN] using hseen⟩
    | num m =>
      exact ⟨seen, by simp [serializeProperty, embedV, structEnc],
        by simpa [embedN] using hseen⟩
    | bool b =>
      exact ⟨seen, by simp [serializeProperty, embedV, structEnc],
        by simpa [embedN] using hseen⟩
    | null =>
      exact ⟨seen, by simp [serializeProperty, embedV, structEnc],
        by simpa [embedN] using hseen⟩
    | undef =>
      exact ⟨seen, by simp [serializeProperty, embedV, structEnc],
        by simpa [embedN] using hseen⟩
    | date iso =>
      exact ⟨seen, by simp [serializeProperty, embedV, structEnc],
        by simpa [embedN] using hseen⟩
    | regexp src =>
      exact ⟨seen, by simp [serializeProperty, embedV, structEnc],
        by simpa [embedN] using hseen⟩
    | func src =>
      exact ⟨seen, by simp [serializeProperty, embedV, structEnc],
        by simpa [embedN] using hseen⟩

theorem sfEmbed (fs : TFields) (n : Nat) (H : Heap) (seen : Finset Nat) (fuel : Nat)
    (hslice : sliceIn (embedFH fs n) H)
    (hseen : ∀ a ∈ seen, a < n)
    (hfuel : cdepthF fs < fuel) :
    ∃ seen2, foldFields (serializeProperty H fuel) seen (embedFV fs n) =
        some (seen2, structEncF fs) ∧ ∀ a ∈ seen2, a < embedFN fs n := by
  cases fs with
  | nil =>
    exact ⟨seen, by simp [embedFV, foldFields, structEncF],
      by simpa [embedFN] using hseen⟩
  | cons k v rest =>
    have hsliceV : sliceIn (embedH v n) H := fun a o hl =>
      hslice a o (by simp only [embedFH]; exact hLookup_append_some hl)
    have hfuelV : cdepth v < fuel := by simp only [cdepthF] at hfuel; omega
    obtain ⟨seen1, hspv, hb1⟩ := spEmbed v n H seen fuel hsliceV hseen hfuelV
    have hsliceR : sliceIn (embedFH rest (embedN v n)) H := by
      intro a o hl
      apply hslice
      simp only [embedFH]
      have hrange := embedFH_range rest (embedN v n) a o hl
      rw [hLookup_append_none (embedH_lookup_none (Or.inr (by omega)))]
      exact hl
    have hfuelR : cdepthF rest < fuel := by simp only [cdepthF] at hfuel; omega
    obtain ⟨seen2, hrest, hb2⟩ := sfEmbed rest (embedN v n) H seen1 fuel hsliceR hb1 hfuelR
    refine ⟨seen2, ?_, ?_⟩
    · cases hse : structEnc v with
      | none =>
        rw [hse] at hspv
        simp [embedFV, foldFields, hspv, hrest, structEncF, hse]
      | some s =>
        rw [hse] at hspv
        simp [embedFV, foldFields, hspv, hrest, structEncF, hse]
    · simpa [embedFN] using hb2

theorem seEmbed (es : TElems) (n : Nat) (H : Heap) (seen : Finset Nat) (fuel : Nat)
    (hslice : sliceIn (embedEH es n) H)
    (hseen : ∀ a ∈ seen, a < n)
    (hfuel : cdepthE es < fuel) :
    ∃ seen2, foldElems (serializeProperty H fuel) seen (embedEV es n) =
        some (seen2, structEncE es) ∧ ∀ a ∈ seen2, a < embedEN es n := by
  cases es with
  | nil =>
    exact ⟨seen, by simp [embedEV, foldElems, structEncE],
      by simpa [embedEN] using hseen⟩
  | cons v rest =>
    have hsliceV : sliceIn (embedH v n) H := fun a o hl =>
      hslice a o (by simp only [embedEH]; exact hLookup_append_some hl)
    have hfuelV : cdepth v < fuel := by simp only [cdepthE] at hfuel; omega
    obtain ⟨seen1, hspv, hb1⟩ := spEmbed v n H seen fuel hsliceV hseen hfuelV
    have hsliceR : sliceIn (embedEH rest (embedN v n)) H := by
      intro a o hl
      apply hslice
      simp only [embedEH]
      have hrange := embedEH_range rest (embedN v n) a o hl
      rw [hLookup_append_none (embedH_lookup_none (Or.inr (by omega)))]
      exact hl
    have hfuelR : cdepthE rest < fuel := by simp only [cdepthE] at hfuel; omega
    obtain ⟨seen2, hrest, hb2⟩ := seEmbed rest (embedN v n) H seen1 fuel hsliceR hb1 hfuelR
    refine ⟨seen2, ?_, ?_⟩
    · simp [embedEV, foldElems, hspv, hrest, structEncE]
    · simpa [embedEN] using hb2
end

mutual
theorem cdepth_le_heapLen (t : TVal) (n : Nat) : cdepth t ≤ (embedH t n).length := by
  cases t with
  | map fs =>
    have := cdepthF_le_heapLen fs (n + 1)
    simp only [cdepth, embedH, List.length_cons]
    omega
  | arr es =>
    have := cdepthE_le_heapLen es (n + 1)
    simp only [cdepth, embedH, List.length_cons]
    omega
  | str s => simp [cdepth]
  | num m => simp [cdepth]
  | bool b => simp [cdepth]
  | null => simp [cdepth]
  | undef => simp [cdepth]
  | date iso => simp [cdepth]
  | regexp src => simp [cdepth]
  | func src => simp [cdepth]

theorem cdepthF_le_heapLen (fs : TFields) (n : Nat) : cdepthF fs ≤ (embedFH fs n).length := by
  cases fs with
  | nil => simp [cdepthF]
  | cons k v rest =>
    have h1 := cdepth_le_heapLen v n
    have h2 := cdepthF_le_heapLen rest (embedN v n)
    simp only [cdepthF, embedFH, List.length_append]
    omega

theorem cdepthE_le_heapLen (es : TElems) (n : Nat) : cdepthE es ≤ (embedEH es n).length := by
  cases es with
  | nil => simp [cdepthE]
  | cons v rest =>
    have h1 := cdepth_le_heapLen v n
    have h2 := cdepthE_le_heapLen rest (embedN v n)
    simp only [cdepthE, embedEH, List.length_append]
    omega
end

theorem infix_appendL {m l : List Char} (u : List Char) (h : m <:+: l) :
    m <:+: u ++ l := by
  obtain ⟨x, y, hxy⟩ := h
  exact ⟨u ++ x, y, by rw [← hxy]; simp⟩

theorem infix_appendR {m l : List Char} (u : List Char) (h : m <:+: l) :
    m <:+: l ++ u := by
  obtain ⟨x, y, hxy⟩ := h
  exact ⟨x, y ++ u, by rw [← hxy]; simp⟩

theorem mem_joinSep_infix {sep : String} {parts : List String} {p : String}
    (hp : p ∈ parts) : p.data <:+: (joinSep sep parts).data := by
  induction parts with
  | nil => simp at hp
  | cons x xs ih =>
    cases xs with
    | nil =>
      rw [List.mem_singleton] at hp
      subst hp
      exact List.infix_rfl
    | cons y ys =>
      rcases List.mem_cons.1 hp with heq | hmem
      · subst heq
        simp only [joinSep, String.data_append]
        exact infix_appendR _ (infix_appendR _ List.infix_rfl)
      · have := ih hmem
        simp only [joinSep, String.data_append]
        rw [List.append_assoc]
        exact infix_appendL _ (infix_appendL _ this)

theorem marker_infix_jsonQuote : circMarker.data <:+: (jsonQuote circMarker).data := by
  have hesc : circMarker.data.flatMap escChar = circMarker.data := by decide
  refine ⟨['"'], ['"'], ?_⟩
  simp [jsonQuote, hesc]

theorem foldFields_marker_mem {h : Heap} {fuel : Nat} {a : Nat} (hfuel : 0 < fuel) :
    ∀ seen fields seen2 parts, a ∈ seen → ("self", JSVal.ref a) ∈ fields →
      foldFields (serializeProperty h fuel) seen fields = some (seen2, parts) →
      (jsonQuote "self" ++ ":" ++ jsonQuote circMarker) ∈ parts := by
  intro seen fields
  induction fields generalizing seen with
  | nil => intro seen2 parts _ hmem _; simp at hmem
  | cons kv rest ih =>
    intro seen2 parts ha hmem hfold
    obtain ⟨k, v⟩ := kv
    rcases List.mem_cons.1 hmem with heq | hmem2
    · obtain ⟨hk, hv⟩ := Prod.mk.injEq .. ▸ heq
      subst hk
      subst hv
      obtain ⟨f, rfl⟩ := Nat.exists_eq_succ_of_ne_zero (Nat.pos_iff_ne_zero.1 hfuel)
      have hstep : serializeProperty h (f + 1) seen (.ref a) =
          some (seen, some (jsonQuote circMarker)) := by
        simp [serializeProperty, if_pos ha]
      simp only [foldFields, hstep] at hfold
      cases hrest : foldFields (serializeProperty h (f + 1)) seen rest with
      | none => rw [hrest] at hfold; simp at hfold
      | some q =>
        obtain ⟨s3, p3⟩ := q
        rw [hrest] at hfold
        simp only [Prod.mk.injEq, Option.some.injEq] at hfold
        rw [← hfold.2]
        exact List.mem_cons_self _ _
    · simp only [foldFields] at hfold
      cases hs : serializeProperty h fuel seen v with
      | none => rw [hs] at hfold; simp at hfold
      | some p =>
        obtain ⟨seen1, r⟩ := p
        rw [hs] at hfold
        have ha1 : a ∈ seen1 := sp_mono h fuel seen v seen1 r hs ha
        cases r with
        | none => exact ih seen1 seen2 parts ha1 hmem2 hfold
        | some s =>
          simp only at hfold
          cases hrest : foldFields (serializeProperty h fuel) seen1 rest with
          | none => rw [hrest] at hfold; simp at hfold
          | some q =>
            obtain ⟨s3, p3⟩ := q
            rw [hrest] at hfold
            simp only [Prod.mk.injEq, Option.some.injEq] at hfold
            rw [← hfold.2]
            exact List.mem_cons_of_mem _ (ih seen1 s3 p3 ha1 hmem2 hrest)

theorem extract_error {ty : String} {body : CVal} {e : JSErr}
    (hx : extract ty body = .error e) :
    e = .decode ∧ ty = "json" ∧ ∃ s, body = .str s ∧ jsonParseText s = none := by
  by_cases hty : ty = "json"
  · subst hty
    cases body with
    | str s =>
      cases hjp : jsonParseText s with
      | none =>
        simp [extract, hjp] at hx
        exact ⟨hx.symm, rfl, s, rfl, hjp⟩
      | some v => simp [extract, hjp] at hx
    | num n => simp [extract] at hx
    | bool b => simp [extract] at hx
    | null => simp [extract] at hx
    | undef => simp [extract] at hx
    | obj fields => simp [extract] at hx
    | arr elems => simp [extract] at hx
  · simp [extract, hty] at hx

theorem parseContent_err (p : Payload) (custom : List (String × PEntry)) (cb : Bool)
    {e : JSErr} (hx : extract (effType p.type) p.body = .error e) :
    parseContent (some p) custom cb =
      ⟨.error e, if cb then [[.val .null, .err e]] else []⟩ := by
  simp [parseContent, hx]

theorem parseContent_ok (p : Payload) (custom : List (String × PEntry)) (cb : Bool)
    {content : CVal} (hx : extract (effType p.type) p.body = .ok content) :
    parseContent (some p) custom cb =
      ⟨.ok ((evalRules (mergedFor custom (effType p.type)) content).getD content),
        if cb then
          [[.val ((evalRules (mergedFor custom (effType p.type)) content).getD content)]]
        else []⟩ := by
  by_cases hemp : (mergedFor custom (effType p.type)).isEmpty
  · have hnil : mergedFor custom (effType p.type) = [] := List.isEmpty_iff.1 hemp
    simp [parseContent, hx, hemp, hnil, evalRules]
  · simp [parseContent, hx, hemp]

/-- C1: For every well-formed heap and value whose references point into
it — covering cyclic graphs, callables, timestamps, compiled patterns
and the absent-marker — `safeStringify` terminates and returns a string.
Within the modelled value universe the structural encoder rejects
nothing and `JSON.stringify` never throws (the seen-set guarantees
termination), so the fallback coercion of the source's catch branch is
never reached and no exception escapes to the caller. -/
theorem c1_serializer_total (h : Heap) (v : JSVal)
    (hwf : heapWFb h = true) (hv : valRefb h v = true) :
    ∃ s, safeStringify h v = some s := by
  have hcard : (domF h \ (∅ : Finset Nat)).card < h.length + 1 := by
    have h1 : (domF h).card ≤ h.length := by
      have h2 := List.toFinset_card_le (h.map Prod.fst)
      simpa [domF] using h2
    simpa using Nat.lt_succ_of_le h1
  cases v with
  | date iso => exact ⟨iso, rfl⟩
  | regexp src => exact ⟨src, rfl⟩
  | func src => exact ⟨src, rfl⟩
  | undef => exact ⟨"undefined", rfl⟩
  | str s => exact ⟨jsonQuote s, rfl⟩
  | num n => exact ⟨toString n, rfl⟩
  | bool b => exact ⟨cond b "true" "false", rfl⟩
  | null => exact ⟨"null", rfl⟩
  | ref a =>
    have hsome := sp_total h hwf (h.length + 1) ∅ (.ref a) hv hcard
    cases hsp : serializeProperty h (h.length + 1) ∅ (.ref a) with
    | none => rw [hsp] at hsome; simp at hsome
    | some p =>
      obtain ⟨seen2, out⟩ := p
      have hout := sp_ref_not_dropped h _ _ a hsp
      cases out with
      | none => simp at hout
      | some s => exact ⟨s, by simp [safeStringify, hsp]⟩

/-- Witness for C1 at a concrete directly-cyclic value. -/
theorem c1_witness :
    heapWFb c1Heap = true ∧ valRefb c1Heap (.ref 0) = true ∧
      ∃ s, safeStringify c1Heap (.ref 0) = some s :=
  ⟨by decide, by decide, c1_serializer_total c1Heap (.ref 0) (by decide) (by decide)⟩

/-- Counterexample to C2 as stated: the value at address 1 of `c2Heap`
is acyclic (it unfolds to a tree), yet its serialization is not the
structural encoding with substitutions at every depth that the claim
describes — the composite at address 0 is referenced twice without a
cycle, so the visited-set emits a false "[Circular Reference]" for the
second reference, and the nested absent-marker member is dropped rather
than substituted. -/
theorem c2_counterexample :
    acyclicb c2Heap (.ref 1) = true ∧
      safeStringify c2Heap (.ref 1) ≠
        (unfoldV c2Heap (c2Heap.length + 1) (.ref 1)).map claimTop :=
  ⟨by decide, by decide⟩

/-- C2 (amended): for every acyclic value in which no composite is
referenced more than once (tree-shaped values, embedded through
`embedH`/`embedV` with one fresh address per composite), serialization
equals the standard structural text encoding with the timestamp,
compiled-pattern and callable substitutions applied at every depth and
the absent-marker substitution at the top level (nested absent members
follow standard JSON omission); in particular the visited set never
emits a placeholder for such values, including two structurally equal
but distinct composites. -/
theorem c2_tree_equivalence (t : TVal) :
    safeStringify (embedH t 0) (embedV t 0) = some (specTop t) := by
  cases t with
  | date iso => rfl
  | regexp src => rfl
  | func src => rfl
  | undef => rfl
  | str s => rfl
  | num n => rfl
  | bool b => rfl
  | null => rfl
  | map fs =>
    have hfuel : cdepth (.map fs) < (embedH (.map fs) 0).length + 1 :=
      Nat.lt_succ_of_le (cdepth_le_heapLen _ 0)
    obtain ⟨seen2, hsp, _⟩ := spEmbed (.map fs) 0 (embedH (.map fs) 0) ∅
      ((embedH (.map fs) 0).length + 1) (fun a o hl => hl) (by simp) hfuel
    simp only [embedV] at hsp
    simp [safeStringify, embedV, hsp, structEnc, specTop]
  | arr es =>
    have hfuel : cdepth (.arr es) < (embedH (.arr es) 0).length + 1 :=
      Nat.lt_succ_of_le (cdepth_le_heapLen _ 0)
    obtain ⟨seen2, hsp, _⟩ := spEmbed (.arr es) 0 (embedH (.arr es) 0) ∅
      ((embedH (.arr es) 0).length + 1) (fun a o hl => hl) (by simp) hfuel
    simp only [embedV] at hsp
    simp [safeStringify, embedV, hsp, structEnc, specTop]

/-- C3: a `parseContent` call on a (non-null) payload can fail only with
the content-decode error, and only in the extraction step with kind json
and a textual body that fails structured parsing; rule evaluation is
total in the model (predicate and transform exceptions are absorbed into
`Option` and never reach the result), so no other error can appear. -/
theorem c3_only_decode_error (p : Payload) (custom : List (String × PEntry)) (cb : Bool)
    (e : JSErr) (herr : (parseContent (some p) custom cb).ret = .error e) :
    e = .decode ∧ effType p.type = "json" ∧
      ∃ s, p.body = .str s ∧ jsonParseText s = none := by
  cases hx : extract (effType p.type) p.body with
  | error e2 =>
    have hpe := parseContent_err p custom cb hx
    rw [hpe] at herr
    simp only at herr
    obtain ⟨he, hty, s, hb, hjp⟩ := extract_error hx
    cases herr
    exact ⟨he, hty, s, hb, hjp⟩
  | ok content =>
    have hpo := parseContent_ok p custom cb hx
    rw [hpo] at herr
    simp at herr

/-- Witness for C3 at a concrete malformed-json payload. -/
theorem c3_witness :
    (parseContent (some ⟨some "json", .str "not json"⟩) [] false).ret = .error .decode ∧
      (JSErr.decode = JSErr.decode ∧ effType (some "json") = "json" ∧
        ∃ s, CVal.str "not json" = .str s ∧ jsonParseText s = none) :=
  ⟨rfl, c3_only_decode_error ⟨some "json", .str "not json"⟩ [] false .decode rfl⟩

/-- C4: merging never replaces or mutates the built-in defaults: the
effective rule list for a kind is always the caller's normalized entries
prepended to the defaults for that kind, and the defaults remain a
suffix.  Cross-call isolation holds because the default table of the
source is a function-local constant rebuilt on every call; accordingly
the model's `defaultFor` is a fixed function of the kind alone, so every
call's effective list is built from the same fresh defaults regardless
of the custom tables passed to earlier calls. -/
theorem c4_merge_preserves_defaults (custom : List (String × PEntry)) (ty : String) :
    mergedFor custom ty = customPart custom ty ++ defaultFor ty ∧
      defaultFor ty <:+ mergedFor custom ty := by
  have h1 : mergedFor custom ty = customPart custom ty ++ defaultFor ty := by
    unfold mergedFor customPart
    cases hlk : List.lookup ty custom with
    | none => simp
    | some entry =>
      cases entry with
      | rules rs => simp
      | fn f => simp
      | other => simp
  exact ⟨h1, h1 ▸ ⟨customPart custom ty, rfl⟩⟩

/-- C5: rules are evaluated in order with caller rules ahead of the
defaults, the first rule whose predicate returns true supplies the
transform (a matching rule whose transform succeeds ends the loop; a
false predicate moves on), and concretely the uppercase custom rule for
kind text overrides the identity default: resolving body "abc" yields
"ABC". -/
theorem c5_rule_order :
    (∀ (r : PRule) (rs : List PRule) (c v : CVal), r.rule c = some true →
        runTransform r.parse c = some v → evalRules (r :: rs) c = some v) ∧
      (∀ (r : PRule) (rs : List PRule) (c : CVal), r.rule c = some false →
        evalRules (r :: rs) c = evalRules rs c) ∧
      mergedFor c5Upper "text" = c5UpperRule :: defaultFor "text" ∧
      (parseContent (some ⟨some "text", .str "abc"⟩) c5Upper false).ret =
        .ok (.str "ABC") := by
  refine ⟨?_, ?_, rfl, rfl⟩
  · intro r rs c v h1 h2
    simp [evalRules, h1, h2]
  · intro r rs c h1
    simp [evalRules, h1]

/-- Witness for C5's first-match property at a concrete rule and input. -/
theorem c5_witness :
    evalRules [c5UpperRule] (.str "a") = some (.str "A") ∧
      (parseContent (some ⟨some "text", .str "abc"⟩) c5Upper false).ret =
        .ok (.str "ABC") :=
  ⟨c5_rule_order.1 c5UpperRule [] (.str "a") (.str "A") rfl rfl, c5_rule_order.2.2.2⟩

/-- Counterexample to C6 as stated: on extraction failure the source
invokes `callback(null, error)` — the first argument slot receives null
and the error object travels in the second slot, not in the result slot
as the claim says. -/
theorem c6_counterexample :
    (parseContent (some ⟨some "json", .str "x"⟩) [] true).calls =
        [[.val .null, .err .decode]] ∧
      ¬ ∃ (e : JSErr) (rest : List CbArg),
        (parseContent (some ⟨some "json", .str "x"⟩) [] true).calls =
          [CbArg.err e :: rest] := by
  refine ⟨rfl, ?_⟩
  rintro ⟨e, rest, hcalls⟩
  have h0 : (parseContent (some ⟨some "json", .str "x"⟩) [] true).calls =
      [[.val .null, .err .decode]] := rfl
  rw [h0] at hcalls
  simp at hcalls

/-- C6 (amended): when a callback is given it is invoked synchronously
and exactly once per call — with the final result as its only argument
on success, and with null in the first argument slot and the error
object in the second slot when content extraction fails (before the
error propagates). -/
theorem c6_callback_once (p : Payload) (custom : List (String × PEntry)) :
    (parseContent (some p) custom true).calls.length = 1 ∧
      (∀ v, (parseContent (some p) custom true).ret = .ok v →
        (parseContent (some p) custom true).calls = [[.val v]]) ∧
      (∀ e, (parseContent (some p) custom true).ret = .error e →
        (parseContent (some p) custom true).calls = [[.val .null, .err e]]) := by
  cases hx : extract (effType p.type) p.body with
  | error e2 =>
    have hpe := parseContent_err p custom true hx
    rw [hpe]
    refine ⟨rfl, ?_, ?_⟩
    · intro v hv; simp at hv
    · intro e he
      simp only at he
      cases he
      rfl
  | ok content =>
    have hpo := parseContent_ok p custom true hx
    rw [hpo]
    refine ⟨rfl, ?_, ?_⟩
    · intro v hv
      simp only at hv
      cases hv
      rfl
    · intro e he; simp at he

/-- Witness for C6 (amended) at a concrete successful call. -/
theorem c6_witness :
    (parseContent (some ⟨some "text", .str "hi"⟩) [] true).calls.length = 1 ∧
      (parseContent (some ⟨some "text", .str "hi"⟩) [] true).calls =
        [[.val (.str "hi")]] :=
  ⟨(c6_callback_once ⟨some "text", .str "hi"⟩ []).1,
    (c6_callback_once ⟨some "text", .str "hi"⟩ []).2.1 (.str "hi") rfl⟩

/-- C7: resolving a well-formed json payload with no custom rules
returns the structurally parsed body.  The built-in default json rule's
transform re-applies `JSON.parse` to the already-parsed object, which
coerces it to "[object Object]" and throws; the failure is absorbed and
the identity fallback returns the parsed base content. -/
theorem c7_json_default :
    (parseContent (some ⟨some "json", .str "\x7b\"a\":1\x7d"⟩) [] false).ret =
        .ok (.obj [("a", .num 1)]) ∧
      runTransform (Transform.single jsParse) (.obj [("a", .num 1)]) = none :=
  ⟨rfl, rfl⟩

/-- C8: if no rule fired successfully (`evalRules` returns none: no
predicate returned true, or every matching transform failed), the call
returns the base content unchanged; when a rule's transform succeeds,
its output is returned; and every successful extraction produces exactly
the rule-loop result with identity fallback. -/
theorem c8_identity_fallback :
    (∀ (rules : List PRule) (c : CVal), evalRules rules c = none →
        (evalRules rules c).getD c = c) ∧
      (∀ (rules : List PRule) (c v : CVal), evalRules rules c = some v →
        (evalRules rules c).getD c = v) ∧
      (∀ (p : Payload) (custom : List (String × PEntry)) (cb : Bool) (content : CVal),
        extract (effType p.type) p.body = .ok content →
        (parseContent (some p) custom cb).ret =
          .ok ((evalRules (mergedFor custom (effType p.type)) content).getD content)) :=
  ⟨fun _ _ h => by simp [h],
    fun _ _ _ h => by simp [h],
    fun p custom cb _ hx => by rw [parseContent_ok p custom cb hx]⟩

/-- Witness for C8 at a concrete text payload (no transform changes the
content, identity fallback keeps it). -/
theorem c8_witness :
    extract (effType (some "text")) (.str "z") = .ok (.str "z") ∧
      (parseContent (some ⟨some "text", .str "z"⟩) [] false).ret =
        .ok ((evalRules (mergedFor [] (effType (some "text"))) (.str "z")).getD (.str "z")) :=
  ⟨rfl, c8_identity_fallback.2.2 ⟨some "text", .str "z"⟩ [] false (.str "z") rfl⟩

/-- Counterexample to C9 as stated: the root of `c9Heap` has a direct
self-reference (one cyclic edge in total), but it also references the
composite at address 1 twice without a cycle, and the serializer emits
the circular-reference placeholder for every reference to an
already-visited composite: the output contains the placeholder twice
while the heap has exactly one distinct cyclic edge. -/
theorem c9_counterexample :
    hLookup c9Heap 0 = some (.map [("self", .ref 0), ("a", .ref 1), ("b", .ref 1)]) ∧
      (safeStringify c9Heap (.ref 0)).map
          (fun s => countSubstr s.data circMarker.data) = some 2 ∧
      cyclicEdgeCount c9Heap = 1 :=
  ⟨rfl, by decide, by decide⟩

/-- C9 (amended): for every well-formed heap whose value has a direct
self-reference (a "self" member holding the value itself), serialization
terminates and its output contains the literal "[Circular Reference]"
substring at least once; one placeholder is emitted per encountered
reference to an already-visited composite, which covers every cyclic
edge but also repeated acyclic references, so the total count can exceed
the number of distinct cyclic edges (see the counterexample). -/
theorem c9_self_ref_marker (h : Heap) (a : Nat) (fields : List (String × JSVal))
    (hwf : heapWFb h = true)
    (hl : hLookup h a = some (.map fields))
    (hf : ("self", JSVal.ref a) ∈ fields) :
    ∃ out, safeStringify h (.ref a) = some out ∧ circMarker.data <:+: out.data := by
  have hadom : a ∈ domF h := mem_domF_of_lookup hl
  have hv : valRefb h (.ref a) = true := by simp [valRefb, hadom]
  have hlen : 1 ≤ h.length := by
    have hm := lookup_mem hl
    cases h with
    | nil => simp at hm
    | cons e rest => simp
  have hcard0 : (domF h).card ≤ h.length := by
    have h2 := List.toFinset_card_le (h.map Prod.fst)
    simpa [domF] using h2
  have hcard : (domF h \ (insert a ∅ : Finset Nat)).card < h.length := by
    have h1 : (domF h \ insert a ∅).card < (domF h \ ∅).card :=
      card_sdiff_insert_lt h hadom (by simp)
    have h2 : (domF h \ ∅).card ≤ h.length := by simpa using hcard0
    omega
  have hrefs : (fields.all fun kv => valRefb h kv.2) = true := by
    have := lookup_wf hwf hl
    simpa [objRefb] using this
  have htot := foldFields_total h h.length
    (fun s v hv2 hc => sp_total h hwf h.length s v hv2 hc)
    (insert a ∅) fields hrefs hcard
  cases hfold : foldFields (serializeProperty h h.length) (insert a ∅) fields with
  | none => rw [hfold] at htot; simp at htot
  | some q =>
    obtain ⟨seen2, parts⟩ := q
    have hmem := foldFields_marker_mem (h := h) (by omega)
      (insert a ∅) fields seen2 parts (Finset.mem_insert_self a ∅) hf hfold
    have h0 : a ∉ (∅ : Finset Nat) := by simp
    have hfold2 : foldFields (serializeProperty h h.length) ({a} : Finset Nat) fields =
        some (seen2, parts) := by
      rw [show ({a} : Finset Nat) = insert a ∅ from rfl]
      exact hfold
    have hout : safeStringify h (.ref a) =
        some ("\x7b" ++ joinSep "," parts ++ "\x7d") := by
      simp [safeStringify, serializeProperty, h0, hl, hfold, hfold2]
    refine ⟨_, hout, ?_⟩
    have hpiece : (jsonQuote "self" ++ ":" ++ jsonQuote circMarker).data <:+:
        (joinSep "," parts).data := mem_joinSep_infix hmem
    have hmarker : circMarker.data <:+:
        (jsonQuote "self" ++ ":" ++ jsonQuote circMarker).data := by
      simp only [String.data_append]
      exact infix_appendL _ marker_infix_jsonQuote
    have hjoin := hmarker.trans hpiece
    simp only [String.data_append]
    exact infix_appendR _ (infix_appendL _ hjoin)

/-- Witness for C9 (amended) at a concrete self-referencing value. -/
theorem c9_witness :
    heapWFb c9wHeap = true ∧
      ∃ out, safeStringify c9wHeap (.ref 0) = some out ∧ circMarker.data <:+: out.data :=
  ⟨by decide, c9_self_ref_marker c9wHeap 0 [("self", .ref 0)] (by decide) rfl (by decide)⟩

/-- C10: a payload whose kind field is absent or falsy resolves exactly
as kind text: the whole observable result coincides with the same call
under kind text (so the text rule list is consulted), the base content
is the body unchanged, and the json extraction path is never taken. -/
theorem c10_falsy_kind_is_text (body : CVal) (custom : List (String × PEntry)) (cb : Bool) :
    parseContent (some ⟨none, body⟩) custom cb =
        parseContent (some ⟨some "text", body⟩) custom cb ∧
      parseContent (some ⟨some "", body⟩) custom cb =
        parseContent (some ⟨some "text", body⟩) custom cb ∧
      extract (effType none) body = .ok body ∧
      effType none = "text" ∧ effType (some "") = "text" :=
  ⟨rfl, rfl, rfl, rfl, rfl⟩
